import Mathlib

/-!
Verification of the core compiler pipeline of `bfc` (src/main.cpp):
lexer (`readChar`, `readInstructions`), loop resolver (`buildProgram`),
and code generator (`int_to_label`, `asm_*`, `assembly`).

Machine integers (`size_t`, `int`) are embedded as `Nat`; the programs
involved never approach any overflow boundary.  `std::vector<T>` is
embedded as `List T` (with `push_back` as append of a singleton and
indexed assignment as `List.set`), `std::stack<size_t>` as `List Nat`
with the top at the head, and `std::optional<T>` as `Option T`.
Operations whose C++ counterpart aborts or is undefined are embedded
in `Option`, with `none` marking the abort/undefined case.
-/

/-- The eight instructions, as in the C++ `enum Instruction`. -/
inductive Instruction
  | RIGHT
  | LEFT
  | PLUS
  | MINUS
  | PUT
  | GET
  | LOOP
  | JMP
deriving DecidableEq, Repr

/-- The C++ `struct Command`: an instruction with its resolved jump target. -/
structure Command where
  inst : Instruction
  jumpTo : Nat
deriving DecidableEq, Repr

/-- Loop body of C++ `buildProgram`, walking the instruction list with the
loop counter `i`, the auxiliary stack `loopstack` (top at head) and the
commands built so far.  In the `JMP` case the C++ code reads
`loopstack.top()` and calls `loopstack.pop()`; on an empty `std::stack`
both are undefined behaviour, embedded as `none`.  `cmds.at(jmpto)` is
bounds-checked in C++ (`std::vector::at` throws out of range), also
embedded as `none`; in every reachable state `jmpto` is in range. -/
def buildProgramAux : List Instruction → Nat → List Nat → List Command →
    Option (List Command)
  | [], _, _, cmds => some cmds
  | inst :: rest, i, loopstack, cmds =>
    match inst with
    | Instruction.JMP =>
      match loopstack with
      | [] => none
      | jmpto :: stk =>
        let cmds2 := cmds ++ [⟨Instruction.JMP, jmpto⟩]
        match cmds2[jmpto]? with
        | none => none
        | some c => buildProgramAux rest (i + 1) stk (cmds2.set jmpto ⟨c.inst, i⟩)
    | Instruction.LOOP =>
        buildProgramAux rest (i + 1) (i :: loopstack) (cmds ++ [⟨Instruction.LOOP, 0⟩])
    | _ =>
        buildProgramAux rest (i + 1) loopstack (cmds ++ [⟨inst, 0⟩])

/-- C++ `buildProgram`: resolve loop brackets into jump targets. -/
def buildProgram (insts : List Instruction) : Option (List Command) :=
  buildProgramAux insts 0 [] []

/-- C++ `asm_right`. -/
def asm_right : String := "inc r8"

/-- C++ `asm_left`. -/
def asm_left : String := "dec r8"

/-- C++ `asm_incr`. -/
def asm_incr : String := "inc byte [rsp+r8]"

/-- C++ `asm_decr`. -/
def asm_decr : String := "dec byte [rsp+r8]"

/-- C++ `asm_put`. -/
def asm_put : List String :=
  ["mov rax, 1",
   "mov rdi, 1",
   "mov rsi, buf",
   "mov rdx, 1",
   "mov r9b, byte [rsp+r8]",
   "mov byte [buf], r9b",
   "syscall"]

/-- C++ `asm_get`. -/
def asm_get : List String :=
  ["mov rax, 0",
   "mov rdi, 0",
   "mov rsi, buf",
   "mov rdx, 1",
   "syscall",
   "mov r9b, [buf]",
   "mov byte [rsp+r8], r9b"]

/-- C++ `asm_loop`. -/
def asm_loop (label jmpTo : String) : List String :=
  [label ++ ":",
   "mov r10b, byte [rsp+r8]",
   "test r10b, r10b",
   "jz " ++ jmpTo]

/-- C++ `asm_jmp`. -/
def asm_jmp (label jmpTo : String) : List String :=
  ["jmp " ++ jmpTo,
   label ++ ":"]

/-- C++ `int_to_label`. -/
def int_to_label (n : Nat) : String :=
  "LP" ++ toString n

/-- C++ `asm_init`. -/
def asm_init : List String :=
  ["global _start",
   "section .data",
   "buf: db 0",
   "section .text",
   "_start:",
   "xor r8, r8",
   "sub rsp, 30000"]

/-- C++ `asm_tail`. -/
def asm_tail : List String :=
  ["add rsp, 30000",
   "mov rax, 60",
   "xor rdi, rdi",
   "syscall"]

/-- The `switch (cmd.inst)` body of the loop in C++ `assembly`: the lines
contributed for the command at index `i`. -/
def cmdAsm (i : Nat) (cmd : Command) : List String :=
  match cmd.inst with
  | Instruction.RIGHT => [asm_right]
  | Instruction.LEFT => [asm_left]
  | Instruction.PLUS => [asm_incr]
  | Instruction.MINUS => [asm_decr]
  | Instruction.PUT => asm_put
  | Instruction.GET => asm_get
  | Instruction.LOOP => asm_loop (int_to_label i) (int_to_label cmd.jumpTo)
  | Instruction.JMP => asm_jmp (int_to_label i) (int_to_label cmd.jumpTo)

/-- The `for` loop of C++ `assembly`, extending the accumulated lines with
each command's translation in order. -/
def assemblyLoop : Nat → List Command → List String → List String
  | _, [], asms => asms
  | i, cmd :: rest, asms => assemblyLoop (i + 1) rest (asms ++ cmdAsm i cmd)

/-- C++ `assembly`: the accumulated lines start from `asm_init` and are
finally extended with `asm_tail`. -/
def assembly (cmds : List Command) : List String :=
  assemblyLoop 0 cmds asm_init ++ asm_tail

/-- C++ `readChar`: the `switch` over the eight recognised characters. -/
def readChar (c : Char) : Option Instruction :=
  if c = '+' then some Instruction.PLUS
  else if c = '-' then some Instruction.MINUS
  else if c = '>' then some Instruction.RIGHT
  else if c = '<' then some Instruction.LEFT
  else if c = '.' then some Instruction.PUT
  else if c = ',' then some Instruction.GET
  else if c = '[' then some Instruction.LOOP
  else if c = ']' then some Instruction.JMP
  else none

/-- The `for` loop of C++ `readInstructions`. -/
def readInstructionsLoop : List Char → List Instruction → List Instruction
  | [], insts => insts
  | c :: cs, insts =>
    match readChar c with
    | some i => readInstructionsLoop cs (insts ++ [i])
    | none => readInstructionsLoop cs insts

/-- C++ `readInstructions`: lex the whole text. -/
def readInstructions (text : String) : List Instruction :=
  readInstructionsLoop text.data []

/-- The core pipeline of C++ `main`: lex, resolve loops, generate assembly
(file reading and the external assembler/linker are boundary concerns). -/
def compile (text : String) : Option (List String) :=
  (buildProgram (readInstructions text)).map assembly

/-! ### Derived definitions used in the specification statements -/

/-- The per-Command translations in input order, starting at index `i`
(the spec's "per-Command translations emitted in input order"). -/
def asmBody : Nat → List Command → List String
  | _, [] => []
  | i, cmd :: rest => cmdAsm i cmd ++ asmBody (i + 1) rest

/-- `true` iff the character list contains the two adjacent characters
`L`, `P` — the prefix every loop label starts with. -/
def hasLP : List Char → Bool
  | 'L' :: 'P' :: _ => true
  | _ :: rest => hasLP rest
  | [] => false

/-- Invariant of the loop-resolver state after consuming a prefix of the
input: `i` is the loop counter, `stack` the pending loop-start indices
(top at head), `cmds` the commands emitted so far. -/
structure ResolverInv (i : Nat) (stack : List Nat) (cmds : List Command) : Prop where
  len_eq : cmds.length = i
  stack_lt : ∀ j ∈ stack, j < i
  stack_nodup : stack.Nodup
  stack_loop : ∀ j ∈ stack, ∃ c : Command, cmds[j]? = some c ∧
    c.inst = Instruction.LOOP
  matched_loop : ∀ (j : Nat) (c : Command), cmds[j]? = some c →
    c.inst = Instruction.LOOP → j ∉ stack →
    ∃ c' : Command, cmds[c.jumpTo]? = some c' ∧ c'.inst = Instruction.JMP ∧
      c'.jumpTo = j
  matched_jmp : ∀ (j : Nat) (c : Command), cmds[j]? = some c →
    c.inst = Instruction.JMP →
    ∃ c' : Command, cmds[c.jumpTo]? = some c' ∧ c'.inst = Instruction.LOOP ∧
      c'.jumpTo = j ∧ c.jumpTo ∉ stack

/-- Well-balanced bracket input: every prefix has at least as many
loop-starts as loop-ends, and the totals agree. -/
def BalancedInput (insts : List Instruction) : Prop :=
  (∀ n, n ≤ insts.length →
    (insts.take n).count Instruction.JMP ≤
      (insts.take n).count Instruction.LOOP) ∧
  insts.count Instruction.JMP = insts.count Instruction.LOOP

instance (insts : List Instruction) : Decidable (BalancedInput insts) := by
  unfold BalancedInput
  infer_instance

/-- The decimal digit string of `n`, most significant digit first: the
reference characterisation of what `Nat.toDigits 10` produces. -/
def decimalDigits (n : Nat) : List Char :=
  if _h : n < 10 then [Nat.digitChar n]
  else decimalDigits (n / 10) ++ [Nat.digitChar (n % 10)]
termination_by n
decreasing_by
  exact Nat.div_lt_self (by omega) (by omega)

/-- Numeric value of a decimal digit character. -/
def digitVal (c : Char) : Nat :=
  c.toNat - Char.toNat '0'

/-- Decode a digit string under accumulator `acc` (base 10). -/
def decodeDigits (acc : Nat) : List Char → Nat
  | [] => acc
  | c :: cs => decodeDigits (acc * 10 + digitVal c) cs

/-- The loop-start labels emitted by the code generator (one `LPi:` line
per loop-start Command at index `i`), indices starting at `i0`. -/
def loopLabelDefsFrom : Nat → List Command → List String
  | _, [] => []
  | i0, c :: rest =>
    (if c.inst = Instruction.LOOP then [int_to_label i0] else []) ++
      loopLabelDefsFrom (i0 + 1) rest

/-- The loop-end target labels referenced by the code generator: one
`jz LPj` operand per loop-start Command (its `jumpTo` is the matching
loop-end index). -/
def endTargetRefs (cmds : List Command) : List String :=
  (cmds.filter (fun c => decide (c.inst = Instruction.LOOP))).map
    (fun c => int_to_label c.jumpTo)

/-- All labels referenced by jumps in the generated assembly: the `jz`
operand of each loop-start and the `jmp` operand of each loop-end. -/
def jumpTargetRefs (cmds : List Command) : List String :=
  (cmds.filter (fun c =>
    decide (c.inst = Instruction.LOOP ∨ c.inst = Instruction.JMP))).map
    (fun c => int_to_label c.jumpTo)

/-! ### Lemmas -/

lemma assemblyLoop_eq (cmds : List Command) :
    ∀ i asms, assemblyLoop i cmds asms = asms ++ asmBody i cmds := by
  induction cmds with
  | nil => intro i asms; simp [assemblyLoop, asmBody]
  | cons cmd rest ih =>
    intro i asms
    simp [assemblyLoop, asmBody, ih, List.append_assoc]

lemma assembly_eq_body (cmds : List Command) :
    assembly cmds = asm_init ++ asmBody 0 cmds ++ asm_tail := by
  simp [assembly, assemblyLoop_eq, List.append_assoc]

lemma readInstructionsLoop_eq (cs : List Char) :
    ∀ acc, readInstructionsLoop cs acc = acc ++ cs.filterMap readChar := by
  induction cs with
  | nil => intro acc; simp [readInstructionsLoop]
  | cons c cs ih =>
    intro acc
    cases h : readChar c with
    | none => simp [readInstructionsLoop, h, ih]
    | some i => simp [readInstructionsLoop, h, ih, List.append_assoc]

lemma filterMap_readChar_length (cs : List Char) :
    (cs.filterMap readChar).length =
      (cs.filter (fun c => (readChar c).isSome)).length := by
  induction cs with
  | nil => rfl
  | cons c cs ih =>
    cases h : readChar c with
    | none => simp [List.filterMap_cons, List.filter_cons, h, ih]
    | some i => simp [List.filterMap_cons, List.filter_cons, h, ih]

lemma set_preserves_inst (l : List Command) (k t : Nat) (c : Command)
    (h : l[k]? = some c) (j : Nat) :
    ((l.set k ⟨c.inst, t⟩)[j]?).map Command.inst = (l[j]?).map Command.inst := by
  rcases eq_or_ne k j with rfl | hne
  · have hk : k < l.length := (List.getElem?_eq_some_iff.mp h).1
    rw [List.getElem?_set_self hk, h]
    rfl
  · rw [List.getElem?_set_ne hne]

lemma inst_spec_step (a : Instruction) (c0 : Command) (hc0 : c0.inst = a)
    (rest : List Instruction) (cmds cmds' : List Command)
    (hlen : cmds'.length = (cmds ++ [c0]).length + rest.length)
    (hj : ∀ j, (cmds'[j]?).map Command.inst =
      if j < (cmds ++ [c0]).length then ((cmds ++ [c0])[j]?).map Command.inst
      else rest[j - (cmds ++ [c0]).length]?) :
    cmds'.length = cmds.length + (a :: rest).length ∧
    ∀ j, (cmds'[j]?).map Command.inst =
      if j < cmds.length then (cmds[j]?).map Command.inst
      else (a :: rest)[j - cmds.length]? := by
  have hl : (cmds ++ [c0]).length = cmds.length + 1 := by simp
  constructor
  · rw [hlen, hl]; simp; omega
  · intro j
    rw [hj j, hl]
    rcases Nat.lt_trichotomy j cmds.length with h | h | h
    · rw [if_pos (by omega), if_pos h, List.getElem?_append_left h]
    · subst h
      rw [if_pos (by omega), if_neg (by omega), List.getElem?_concat_length,
        Nat.sub_self]
      simp [hc0]
    · rw [if_neg (by omega), if_neg (by omega)]
      have he : j - cmds.length = (j - (cmds.length + 1)) + 1 := by omega
      rw [he, List.getElem?_cons_succ]

lemma buildProgramAux_inst (insts : List Instruction) :
    ∀ i stack cmds cmds', buildProgramAux insts i stack cmds = some cmds' →
      cmds'.length = cmds.length + insts.length ∧
      ∀ j, (cmds'[j]?).map Command.inst =
        if j < cmds.length then (cmds[j]?).map Command.inst
        else insts[j - cmds.length]? := by
  induction insts with
  | nil =>
    intro i stack cmds cmds' h
    simp only [buildProgramAux, Option.some.injEq] at h
    subst h
    refine ⟨by simp, ?_⟩
    intro j
    rcases Nat.lt_or_ge j cmds.length with h | h
    · rw [if_pos h]
    · rw [if_neg (by omega), List.getElem?_eq_none h]
      simp
  | cons a rest ih =>
    intro i stack cmds cmds' h
    cases a with
    | JMP =>
      simp only [buildProgramAux] at h
      cases stack with
      | nil => simp at h
      | cons jmpto stk =>
        simp only at h
        cases hg : (cmds ++ [(⟨Instruction.JMP, jmpto⟩ : Command)])[jmpto]? with
        | none => rw [hg] at h; simp at h
        | some c =>
          rw [hg] at h
          simp only at h
          obtain ⟨hlen, hj⟩ := ih (i + 1) stk _ cmds' h
          refine inst_spec_step Instruction.JMP ⟨Instruction.JMP, jmpto⟩ rfl rest cmds cmds'
            (by simpa using hlen) ?_
          intro j
          rw [hj j, List.length_set]
          rcases Nat.lt_or_ge j (cmds ++ [(⟨Instruction.JMP, jmpto⟩ : Command)]).length with hlt | hge
          · rw [if_pos hlt, if_pos hlt, set_preserves_inst _ _ _ _ hg]
          · rw [if_neg (by omega), if_neg (by omega)]
    | LOOP =>
      simp only [buildProgramAux] at h
      obtain ⟨hlen, hj⟩ := ih (i + 1) (i :: stack) _ cmds' h
      exact inst_spec_step Instruction.LOOP ⟨Instruction.LOOP, 0⟩ rfl rest cmds cmds' hlen hj
    | RIGHT =>
      simp only [buildProgramAux] at h
      obtain ⟨hlen, hj⟩ := ih (i + 1) stack _ cmds' h
      exact inst_spec_step Instruction.RIGHT ⟨Instruction.RIGHT, 0⟩ rfl rest cmds cmds' hlen hj
    | LEFT =>
      simp only [buildProgramAux] at h
      obtain ⟨hlen, hj⟩ := ih (i + 1) stack _ cmds' h
      exact inst_spec_step Instruction.LEFT ⟨Instruction.LEFT, 0⟩ rfl rest cmds cmds' hlen hj
    | PLUS =>
      simp only [buildProgramAux] at h
      obtain ⟨hlen, hj⟩ := ih (i + 1) stack _ cmds' h
      exact inst_spec_step Instruction.PLUS ⟨Instruction.PLUS, 0⟩ rfl rest cmds cmds' hlen hj
    | MINUS =>
      simp only [buildProgramAux] at h
      obtain ⟨hlen, hj⟩ := ih (i + 1) stack _ cmds' h
      exact inst_spec_step Instruction.MINUS ⟨Instruction.MINUS, 0⟩ rfl rest cmds cmds' hlen hj
    | PUT =>
      simp only [buildProgramAux] at h
      obtain ⟨hlen, hj⟩ := ih (i + 1) stack _ cmds' h
      exact inst_spec_step Instruction.PUT ⟨Instruction.PUT, 0⟩ rfl rest cmds cmds' hlen hj
    | GET =>
      simp only [buildProgramAux] at h
      obtain ⟨hlen, hj⟩ := ih (i + 1) stack _ cmds' h
      exact inst_spec_step Instruction.GET ⟨Instruction.GET, 0⟩ rfl rest cmds cmds' hlen hj

lemma ResolverInv.push_plain {i : Nat} {stack : List Nat} {cmds : List Command}
    (h : ResolverInv i stack cmds) (a : Instruction) (ha1 : a ≠ Instruction.LOOP)
    (ha2 : a ≠ Instruction.JMP) :
    ResolverInv (i + 1) stack (cmds ++ [⟨a, 0⟩]) := by
  have hlt : ∀ j c, cmds[j]? = some c → j < cmds.length :=
    fun j c hj => (List.getElem?_eq_some_iff.mp hj).1
  refine ⟨by simp [h.len_eq], fun j hj => Nat.lt_succ_of_lt (h.stack_lt j hj),
    h.stack_nodup, ?_, ?_, ?_⟩
  · intro j hj
    obtain ⟨c, hc, hci⟩ := h.stack_loop j hj
    exact ⟨c, by rw [List.getElem?_append_left (hlt j c hc)]; exact hc, hci⟩
  · intro j c hj hci hns
    rcases Nat.lt_or_ge j cmds.length with hlt' | hge
    · rw [List.getElem?_append_left hlt'] at hj
      obtain ⟨c', hc', hi', ht'⟩ := h.matched_loop j c hj hci hns
      exact ⟨c', by rw [List.getElem?_append_left (hlt _ c' hc')]; exact hc', hi', ht'⟩
    · have hje : j = cmds.length := by
        have := (List.getElem?_eq_some_iff.mp hj).1
        simp at this
        omega
      subst hje
      rw [List.getElem?_concat_length] at hj
      cases hj
      exact absurd hci ha1
  · intro j c hj hci
    rcases Nat.lt_or_ge j cmds.length with hlt' | hge
    · rw [List.getElem?_append_left hlt'] at hj
      obtain ⟨c', hc', hi', ht', hns'⟩ := h.matched_jmp j c hj hci
      exact ⟨c', by rw [List.getElem?_append_left (hlt _ c' hc')]; exact hc', hi', ht', hns'⟩
    · have hje : j = cmds.length := by
        have := (List.getElem?_eq_some_iff.mp hj).1
        simp at this
        omega
      subst hje
      rw [List.getElem?_concat_length] at hj
      cases hj
      exact absurd hci ha2

lemma ResolverInv.push_loop {i : Nat} {stack : List Nat} {cmds : List Command}
    (h : ResolverInv i stack cmds) :
    ResolverInv (i + 1) (i :: stack) (cmds ++ [⟨Instruction.LOOP, 0⟩]) := by
  have hlt : ∀ j c, cmds[j]? = some c → j < cmds.length :=
    fun j c hj => (List.getElem?_eq_some_iff.mp hj).1
  refine ⟨by simp [h.len_eq], ?_, ?_, ?_, ?_, ?_⟩
  · intro j hj
    rcases List.mem_cons.mp hj with rfl | hj
    · exact Nat.lt_succ_self j
    · exact Nat.lt_succ_of_lt (h.stack_lt j hj)
  · exact List.nodup_cons.mpr
      ⟨fun hmem => absurd (h.stack_lt i hmem) (Nat.lt_irrefl i), h.stack_nodup⟩
  · intro j hj
    rcases List.mem_cons.mp hj with rfl | hj
    · refine ⟨⟨Instruction.LOOP, 0⟩, ?_, rfl⟩
      rw [← h.len_eq]
      exact List.getElem?_concat_length cmds _
    · obtain ⟨c, hc, hci⟩ := h.stack_loop j hj
      exact ⟨c, by rw [List.getElem?_append_left (hlt j c hc)]; exact hc, hci⟩
  · intro j c hj hci hns
    have hns' : j ∉ stack := fun hm => hns (List.mem_cons_of_mem _ hm)
    have hji : j ≠ i := fun he => hns (he ▸ List.mem_cons_self i stack)
    rcases Nat.lt_or_ge j cmds.length with hlt' | hge
    · rw [List.getElem?_append_left hlt'] at hj
      obtain ⟨c', hc', hi', ht'⟩ := h.matched_loop j c hj hci hns'
      exact ⟨c', by rw [List.getElem?_append_left (hlt _ c' hc')]; exact hc', hi', ht'⟩
    · have hje : j = cmds.length := by
        have := (List.getElem?_eq_some_iff.mp hj).1
        simp at this
        omega
      exact absurd (hje.trans h.len_eq) hji
  · intro j c hj hci
    rcases Nat.lt_or_ge j cmds.length with hlt' | hge
    · rw [List.getElem?_append_left hlt'] at hj
      obtain ⟨c', hc', hi', ht', hns'⟩ := h.matched_jmp j c hj hci
      have htlt : c.jumpTo < cmds.length := hlt _ c' hc'
      refine ⟨c', by rw [List.getElem?_append_left htlt]; exact hc', hi', ht', ?_⟩
      intro hm
      rcases List.mem_cons.mp hm with he | hm'
      · rw [he, h.len_eq] at htlt
        exact absurd htlt (Nat.lt_irrefl i)
      · exact hns' hm'
    · have hje : j = cmds.length := by
        have := (List.getElem?_eq_some_iff.mp hj).1
        simp at this
        omega
      subst hje
      rw [List.getElem?_concat_length] at hj
      cases hj
      exact absurd hci (by decide)

lemma ResolverInv.pop_jmp {i jmpto : Nat} {stk : List Nat} {cmds : List Command}
    (h : ResolverInv i (jmpto :: stk) cmds) :
    ∃ c : Command,
      (cmds ++ [(⟨Instruction.JMP, jmpto⟩ : Command)])[jmpto]? = some c ∧
      c.inst = Instruction.LOOP ∧
      ResolverInv (i + 1) stk
        ((cmds ++ [(⟨Instruction.JMP, jmpto⟩ : Command)]).set jmpto
          (⟨c.inst, i⟩ : Command)) := by
  have hlt : ∀ (j : Nat) (c : Command), cmds[j]? = some c → j < cmds.length :=
    fun j c hj => (List.getElem?_eq_some_iff.mp hj).1
  have hjm : jmpto ∈ jmpto :: stk := List.mem_cons_self jmpto stk
  have hjlt : jmpto < cmds.length := (h.len_eq).symm ▸ h.stack_lt jmpto hjm
  obtain ⟨c, hc, hci⟩ := h.stack_loop jmpto hjm
  have hc2 : (cmds ++ [(⟨Instruction.JMP, jmpto⟩ : Command)])[jmpto]? = some c := by
    rw [List.getElem?_append_left hjlt]; exact hc
  have hjstk : jmpto ∉ stk := (List.nodup_cons.mp h.stack_nodup).1
  have hstknd : stk.Nodup := (List.nodup_cons.mp h.stack_nodup).2
  -- abbreviations
  set cmds2 := cmds ++ [(⟨Instruction.JMP, jmpto⟩ : Command)] with hcmds2
  set cmds3 := cmds2.set jmpto ⟨c.inst, i⟩ with hcmds3
  have hl2 : cmds2.length = cmds.length + 1 := by simp [hcmds2]
  have hjlt2 : jmpto < cmds2.length := by omega
  -- getElem? facts about cmds3
  have h3at : cmds3[jmpto]? = some ⟨c.inst, i⟩ := List.getElem?_set_self hjlt2
  have h3ne : ∀ j : Nat, j ≠ jmpto → cmds3[j]? = cmds2[j]? :=
    fun j hne => List.getElem?_set_ne (Ne.symm hne)
  have h2old : ∀ j : Nat, j < cmds.length → cmds2[j]? = cmds[j]? :=
    fun j hj => List.getElem?_append_left hj
  have h2new : cmds2[cmds.length]? = some ⟨Instruction.JMP, jmpto⟩ :=
    List.getElem?_concat_length cmds _
  have hilen : cmds.length = i := h.len_eq
  refine ⟨c, hc2, hci, ?_, ?_, ?_, ?_, ?_, ?_⟩
  · simp [hcmds3, hcmds2]; omega
  · intro j hj
    exact Nat.lt_succ_of_lt (h.stack_lt j (List.mem_cons_of_mem _ hj))
  · exact hstknd
  · intro j hj
    have hne : j ≠ jmpto := fun he => hjstk (he ▸ hj)
    have hjl : j < cmds.length := (h.len_eq).symm ▸ h.stack_lt j (List.mem_cons_of_mem _ hj)
    obtain ⟨c1, hc1, hc1i⟩ := h.stack_loop j (List.mem_cons_of_mem _ hj)
    exact ⟨c1, by rw [h3ne j hne, h2old j hjl]; exact hc1, hc1i⟩
  · -- matched_loop
    intro j c0 hj0 hc0i hns
    rcases eq_or_ne jmpto j with heq | hne'
    · -- the freshly patched loop-start
      subst heq
      rw [h3at] at hj0
      cases hj0
      refine ⟨⟨Instruction.JMP, jmpto⟩, ?_, rfl, rfl⟩
      show cmds3[i]? = _
      have hine : i ≠ jmpto := by omega
      rw [h3ne i hine, ← hilen]
      exact h2new
    · have hne : j ≠ jmpto := Ne.symm hne'
      rw [h3ne j hne] at hj0
      rcases Nat.lt_or_ge j cmds.length with hlt' | hge
      · rw [h2old j hlt'] at hj0
        have hns' : j ∉ jmpto :: stk := by
          intro hm
          rcases List.mem_cons.mp hm with he | hm'
          · exact hne he
          · exact hns hm'
        obtain ⟨c', hc', hi', ht'⟩ := h.matched_loop j c0 hj0 hc0i hns'
        have htne : c0.jumpTo ≠ jmpto := by
          intro he
          rw [he, hc] at hc'
          cases hc'
          rw [hci] at hi'
          exact absurd hi' (by decide)
        refine ⟨c', ?_, hi', ht'⟩
        rw [h3ne _ htne, h2old _ (hlt _ c' hc')]
        exact hc'
      · -- j = cmds.length: the new JMP command, not a LOOP
        have hje : j = cmds.length := by
          have := (List.getElem?_eq_some_iff.mp hj0).1
          rw [hl2] at this
          omega
        subst hje
        rw [h2new] at hj0
        cases hj0
        exact absurd hc0i (by simp)
  · -- matched_jmp
    intro j c0 hj0 hc0i
    rcases eq_or_ne jmpto j with heq | hne'
    · subst heq
      rw [h3at] at hj0
      cases hj0
      rw [hci] at hc0i
      exact absurd hc0i (by simp)
    · have hne : j ≠ jmpto := Ne.symm hne'
      rw [h3ne j hne] at hj0
      rcases Nat.lt_or_ge j cmds.length with hlt' | hge
      · rw [h2old j hlt'] at hj0
        obtain ⟨c', hc', hi', ht', hns'⟩ := h.matched_jmp j c0 hj0 hc0i
        have htne : c0.jumpTo ≠ jmpto := fun he => hns' (he ▸ List.mem_cons_self jmpto stk)
        have hns'' : c0.jumpTo ∉ stk := fun hm => hns' (List.mem_cons_of_mem _ hm)
        refine ⟨c', ?_, hi', ht', hns''⟩
        rw [h3ne _ htne, h2old _ (hlt _ c' hc')]
        exact hc'
      · -- j = cmds.length: the new JMP, whose target is the patched loop-start
        have hje : j = cmds.length := by
          have := (List.getElem?_eq_some_iff.mp hj0).1
          rw [hl2] at this
          omega
        subst hje
        rw [h2new] at hj0
        cases hj0
        refine ⟨⟨c.inst, i⟩, h3at, by rw [hci], by rw [hilen], hjstk⟩

lemma count_step (a : Instruction) (ha : a ≠ Instruction.JMP)
    (rest : List Instruction) (m : Nat)
    (hpre : ∀ n, ((a :: rest).take n).count Instruction.JMP ≤
      m + ((a :: rest).take n).count Instruction.LOOP)
    (htot : (a :: rest).count Instruction.JMP =
      m + (a :: rest).count Instruction.LOOP) :
    (∀ n, (rest.take n).count Instruction.JMP ≤
      (m + [a].count Instruction.LOOP) + (rest.take n).count Instruction.LOOP) ∧
    rest.count Instruction.JMP =
      (m + [a].count Instruction.LOOP) + rest.count Instruction.LOOP := by
  have hja : (a == Instruction.JMP) = false := by
    simp [ha]
  rcases eq_or_ne a Instruction.LOOP with rfl | hl
  · constructor
    · intro n
      have h1 := hpre (n + 1)
      rw [List.take_succ_cons] at h1
      simp [List.count_cons] at h1 ⊢
      omega
    · have h1 := htot
      simp [List.count_cons] at h1 ⊢
      omega
  · have hla : (a == Instruction.LOOP) = false := by
      simp [hl]
    constructor
    · intro n
      have h1 := hpre (n + 1)
      rw [List.take_succ_cons] at h1
      simp [List.count_cons, hja, hla] at h1 ⊢
      omega
    · have h1 := htot
      simp [List.count_cons, hja, hla] at h1 ⊢
      omega

lemma count_step_jmp (rest : List Instruction) (m : Nat)
    (hpre : ∀ n, ((Instruction.JMP :: rest).take n).count Instruction.JMP ≤
      m + ((Instruction.JMP :: rest).take n).count Instruction.LOOP)
    (htot : (Instruction.JMP :: rest).count Instruction.JMP =
      m + (Instruction.JMP :: rest).count Instruction.LOOP) :
    1 ≤ m ∧
    (∀ n, (rest.take n).count Instruction.JMP ≤
      (m - 1) + (rest.take n).count Instruction.LOOP) ∧
    rest.count Instruction.JMP = (m - 1) + rest.count Instruction.LOOP := by
  have hm : 1 ≤ m := by
    have h1 := hpre 1
    simp [List.count_cons] at h1
    omega
  refine ⟨hm, ?_, ?_⟩
  · intro n
    have h1 := hpre (n + 1)
    rw [List.take_succ_cons] at h1
    simp [List.count_cons] at h1
    omega
  · have h1 := htot
    simp [List.count_cons] at h1
    omega

lemma buildProgramAux_balanced (insts : List Instruction) :
    ∀ i stack cmds, ResolverInv i stack cmds →
      (∀ n, (insts.take n).count Instruction.JMP ≤
        stack.length + (insts.take n).count Instruction.LOOP) →
      (insts.count Instruction.JMP =
        stack.length + insts.count Instruction.LOOP) →
      ∃ cmds', buildProgramAux insts i stack cmds = some cmds' ∧
        ResolverInv (i + insts.length) [] cmds' := by
  induction insts with
  | nil =>
    intro i stack cmds hinv hpre htot
    have hs : stack = [] := by
      simp at htot
      exact List.length_eq_zero.mp htot.symm
    subst hs
    exact ⟨cmds, rfl, by simpa using hinv⟩
  | cons a rest ih =>
    intro i stack cmds hinv hpre htot
    cases a with
    | LOOP =>
      obtain ⟨hpre', htot'⟩ :=
        count_step Instruction.LOOP (by decide) rest stack.length hpre htot
      obtain ⟨cmds', hrun, hinv'⟩ :=
        ih (i + 1) (i :: stack) (cmds ++ [⟨Instruction.LOOP, 0⟩])
          hinv.push_loop (by simpa using hpre') (by simpa using htot')
      refine ⟨cmds', ?_, ?_⟩
      · simp only [buildProgramAux]
        exact hrun
      · have : i + (rest.length + 1) = (i + 1) + rest.length := by omega
        rw [List.length_cons, this]
        exact hinv'
    | JMP =>
      obtain ⟨hm, hpre', htot'⟩ := count_step_jmp rest stack.length hpre htot
      cases stack with
      | nil => simp at hm
      | cons jmpto stk =>
        obtain ⟨c, hc, hci, hinv3⟩ := hinv.pop_jmp
        obtain ⟨cmds', hrun, hinv'⟩ :=
          ih (i + 1) stk _ hinv3 (by simpa using hpre') (by simpa using htot')
        refine ⟨cmds', ?_, ?_⟩
        · simp only [buildProgramAux]
          rw [hc]
          exact hrun
        · have : i + (rest.length + 1) = (i + 1) + rest.length := by omega
          rw [List.length_cons, this]
          exact hinv'
    | RIGHT =>
      obtain ⟨hpre', htot'⟩ :=
        count_step Instruction.RIGHT (by decide) rest stack.length hpre htot
      obtain ⟨cmds', hrun, hinv'⟩ :=
        ih (i + 1) stack (cmds ++ [⟨Instruction.RIGHT, 0⟩])
          (hinv.push_plain Instruction.RIGHT (by decide) (by decide))
          (by simpa using hpre') (by simpa using htot')
      refine ⟨cmds', ?_, ?_⟩
      · simp only [buildProgramAux]
        exact hrun
      · have : i + (rest.length + 1) = (i + 1) + rest.length := by omega
        rw [List.length_cons, this]
        exact hinv'
    | LEFT =>
      obtain ⟨hpre', htot'⟩ :=
        count_step Instruction.LEFT (by decide) rest stack.length hpre htot
      obtain ⟨cmds', hrun, hinv'⟩ :=
        ih (i + 1) stack (cmds ++ [⟨Instruction.LEFT, 0⟩])
          (hinv.push_plain Instruction.LEFT (by decide) (by decide))
          (by simpa using hpre') (by simpa using htot')
      refine ⟨cmds', ?_, ?_⟩
      · simp only [buildProgramAux]
        exact hrun
      · have : i + (rest.length + 1) = (i + 1) + rest.length := by omega
        rw [List.length_cons, this]
        exact hinv'
    | PLUS =>
      obtain ⟨hpre', htot'⟩ :=
        count_step Instruction.PLUS (by decide) rest stack.length hpre htot
      obtain ⟨cmds', hrun, hinv'⟩ :=
        ih (i + 1) stack (cmds ++ [⟨Instruction.PLUS, 0⟩])
          (hinv.push_plain Instruction.PLUS (by decide) (by decide))
          (by simpa using hpre') (by simpa using htot')
      refine ⟨cmds', ?_, ?_⟩
      · simp only [buildProgramAux]
        exact hrun
      · have : i + (rest.length + 1) = (i + 1) + rest.length := by omega
        rw [List.length_cons, this]
        exact hinv'
    | MINUS =>
      obtain ⟨hpre', htot'⟩ :=
        count_step Instruction.MINUS (by decide) rest stack.length hpre htot
      obtain ⟨cmds', hrun, hinv'⟩ :=
        ih (i + 1) stack (cmds ++ [⟨Instruction.MINUS, 0⟩])
          (hinv.push_plain Instruction.MINUS (by decide) (by decide))
          (by simpa using hpre') (by simpa using htot')
      refine ⟨cmds', ?_, ?_⟩
      · simp only [buildProgramAux]
        exact hrun
      · have : i + (rest.length + 1) = (i + 1) + rest.length := by omega
        rw [List.length_cons, this]
        exact hinv'
    | PUT =>
      obtain ⟨hpre', htot'⟩ :=
        count_step Instruction.PUT (by decide) rest stack.length hpre htot
      obtain ⟨cmds', hrun, hinv'⟩ :=
        ih (i + 1) stack (cmds ++ [⟨Instruction.PUT, 0⟩])
          (hinv.push_plain Instruction.PUT (by decide) (by decide))
          (by simpa using hpre') (by simpa using htot')
      refine ⟨cmds', ?_, ?_⟩
      · simp only [buildProgramAux]
        exact hrun
      · have : i + (rest.length + 1) = (i + 1) + rest.length := by omega
        rw [List.length_cons, this]
        exact hinv'
    | GET =>
      obtain ⟨hpre', htot'⟩ :=
        count_step Instruction.GET (by decide) rest stack.length hpre htot
      obtain ⟨cmds', hrun, hinv'⟩ :=
        ih (i + 1) stack (cmds ++ [⟨Instruction.GET, 0⟩])
          (hinv.push_plain Instruction.GET (by decide) (by decide))
          (by simpa using hpre') (by simpa using htot')
      refine ⟨cmds', ?_, ?_⟩
      · simp only [buildProgramAux]
        exact hrun
      · have : i + (rest.length + 1) = (i + 1) + rest.length := by omega
        rw [List.length_cons, this]
        exact hinv'

lemma resolverInv_init : ResolverInv 0 [] [] := by
  refine ⟨rfl, by simp, List.nodup_nil, by simp, ?_, ?_⟩ <;>
    intro j c hj <;> simp at hj

lemma balanced_run (insts : List Instruction) (hb : BalancedInput insts) :
    ∃ cmds, buildProgram insts = some cmds ∧
      ResolverInv insts.length [] cmds := by
  have hpre : ∀ n, (insts.take n).count Instruction.JMP ≤
      ([] : List Nat).length + (insts.take n).count Instruction.LOOP := by
    intro n
    rcases le_or_lt n insts.length with h | h
    · simpa using hb.1 n h
    · rw [List.take_of_length_le (Nat.le_of_lt h)]
      simpa using Nat.le_of_eq hb.2
  have htot : insts.count Instruction.JMP =
      ([] : List Nat).length + insts.count Instruction.LOOP := by
    simpa using hb.2
  obtain ⟨cmds, hrun, hinv⟩ :=
    buildProgramAux_balanced insts 0 [] [] resolverInv_init hpre htot
  exact ⟨cmds, hrun, by simpa using hinv⟩

lemma digitVal_digitChar (n : Nat) (h : n < 10) :
    digitVal (Nat.digitChar n) = n := by
  interval_cases n <;> decide

lemma decodeDigits_append (xs ys : List Char) :
    ∀ acc, decodeDigits acc (xs ++ ys) = decodeDigits (decodeDigits acc xs) ys := by
  induction xs with
  | nil => intro acc; rfl
  | cons c cs ih =>
    intro acc
    show decodeDigits (acc * 10 + digitVal c) (cs ++ ys) = _
    rw [ih]
    rfl

lemma decodeDigits_decimalDigits (n : Nat) :
    ∀ acc, decodeDigits acc (decimalDigits n) =
      acc * 10 ^ (decimalDigits n).length + n := by
  induction n using Nat.strong_induction_on with
  | _ n ih =>
    intro acc
    by_cases h : n < 10
    · rw [decimalDigits, dif_pos h]
      show acc * 10 + digitVal (Nat.digitChar n) = _
      rw [digitVal_digitChar n h]
      simp
    · rw [decimalDigits, dif_neg h]
      have hlt : n / 10 < n := Nat.div_lt_self (by omega) (by omega)
      have hm : n % 10 < 10 := Nat.mod_lt n (by omega)
      rw [decodeDigits_append, ih (n / 10) hlt]
      have hstep : ∀ b : Nat,
          decodeDigits b [Nat.digitChar (n % 10)] = b * 10 + n % 10 := by
        intro b
        show b * 10 + digitVal (Nat.digitChar (n % 10)) = _
        rw [digitVal_digitChar _ hm]
      rw [hstep, List.length_append, List.length_cons, List.length_nil]
      have hp : 10 ^ ((decimalDigits (n / 10)).length + (0 + 1)) =
          10 ^ (decimalDigits (n / 10)).length * 10 := by
        rw [Nat.zero_add, Nat.pow_succ]
      rw [hp]
      have hrearr : (acc * 10 ^ (decimalDigits (n / 10)).length + n / 10) * 10
            + n % 10 =
          acc * (10 ^ (decimalDigits (n / 10)).length * 10)
            + (10 * (n / 10) + n % 10) := by ring
      rw [hrearr, Nat.div_add_mod]

lemma decimalDigits_injective : Function.Injective decimalDigits := by
  intro m n h
  have hm := decodeDigits_decimalDigits m 0
  have hn := decodeDigits_decimalDigits n 0
  rw [h] at hm
  rw [hm] at hn
  simpa using hn

lemma toDigitsCore_eq_decimalDigits :
    ∀ (fuel n : Nat) (ds : List Char), 0 < fuel → n < 10 ^ fuel →
      Nat.toDigitsCore 10 fuel n ds = decimalDigits n ++ ds := by
  intro fuel
  induction fuel with
  | zero => intro n ds hf; omega
  | succ f ih =>
    intro n ds _ hn
    by_cases h : n / 10 = 0
    · have h10 : n < 10 := by omega
      rw [Nat.toDigitsCore]
      simp only [h, if_pos rfl]
      rw [decimalDigits, dif_pos h10, Nat.mod_eq_of_lt h10]
      rfl
    · have h10 : ¬ n < 10 := by omega
      rw [Nat.toDigitsCore]
      simp only [h, if_neg h]
      have hf : 0 < f := by
        by_contra hf0
        have hfz : f = 0 := by omega
        rw [hfz] at hn
        simp at hn
        omega
      have hdiv : n / 10 < 10 ^ f := by
        have h1 : n < 10 * 10 ^ f := by
          rw [Nat.mul_comm, ← Nat.pow_succ]
          exact hn
        exact Nat.div_lt_of_lt_mul h1
      rw [ih (n / 10) (Nat.digitChar (n % 10) :: ds) hf hdiv]
      have hexp : decimalDigits n =
          decimalDigits (n / 10) ++ [Nat.digitChar (n % 10)] := by
        rw [decimalDigits]
        exact dif_neg h10
      rw [hexp]
      simp

lemma Nat_repr_eq_decimalDigits (n : Nat) :
    Nat.repr n = (decimalDigits n).asString := by
  have hlt : n < 10 ^ (n + 1) := by
    have h1 : n < 10 ^ n := Nat.lt_pow_self (by omega) n
    have h2 : 10 ^ n ≤ 10 ^ (n + 1) :=
      Nat.pow_le_pow_right (by omega) (Nat.le_succ n)
    omega
  show (Nat.toDigits 10 n).asString = _
  rw [Nat.toDigits,
    toDigitsCore_eq_decimalDigits (n + 1) n [] (Nat.succ_pos n) hlt,
    List.append_nil]

lemma toString_nat_data (n : Nat) : (toString n).data = decimalDigits n := by
  show (Nat.repr n).data = _
  rw [Nat_repr_eq_decimalDigits]
  rfl

lemma int_to_label_injective : Function.Injective int_to_label := by
  intro m n h
  apply decimalDigits_injective
  have hd : ("LP" ++ toString m).data = ("LP" ++ toString n).data :=
    congrArg String.data h
  rw [String.data_append, String.data_append, toString_nat_data,
    toString_nat_data] at hd
  simpa using hd

lemma loopLabelDefsFrom_length (cmds : List Command) :
    ∀ i0, (loopLabelDefsFrom i0 cmds).length = (endTargetRefs cmds).length := by
  induction cmds with
  | nil => intro i0; rfl
  | cons c rest ih =>
    intro i0
    by_cases h : c.inst = Instruction.LOOP
    · simp [loopLabelDefsFrom, endTargetRefs, List.filter_cons, h, ih i0]
      have := ih (i0 + 1)
      simp [endTargetRefs] at this
      omega
    · simp [loopLabelDefsFrom, endTargetRefs, List.filter_cons, h]
      have := ih (i0 + 1)
      simp [endTargetRefs] at this
      omega

lemma mem_asmBody_of_getElem (cmds : List Command) :
    ∀ (i0 k : Nat) (c : Command) (s : String), cmds[k]? = some c →
      s ∈ cmdAsm (i0 + k) c → s ∈ asmBody i0 cmds := by
  induction cmds with
  | nil => intro i0 k c s h; simp at h
  | cons c0 rest ih =>
    intro i0 k c s h hs
    cases k with
    | zero =>
      simp at h
      subst h
      rw [Nat.add_zero] at hs
      exact List.mem_append_left _ hs
    | succ k =>
      simp only [List.getElem?_cons_succ] at h
      have hs' : s ∈ cmdAsm ((i0 + 1) + k) c := by
        have harith : i0 + (k + 1) = (i0 + 1) + k := by omega
        rw [harith] at hs
        exact hs
      exact List.mem_append_right _ (ih (i0 + 1) k c s h hs')

lemma label_def_mem_assembly (cmds : List Command) (k : Nat) (c : Command)
    (hk : cmds[k]? = some c)
    (hc : c.inst = Instruction.LOOP ∨ c.inst = Instruction.JMP) :
    (int_to_label k ++ ":") ∈ assembly cmds := by
  have hmem : (int_to_label k ++ ":") ∈ cmdAsm (0 + k) c := by
    rw [Nat.zero_add]
    obtain ⟨ci, ct⟩ := c
    rcases hc with h | h <;> simp at h <;> subst h <;>
      simp [cmdAsm, asm_loop, asm_jmp]
  have hbody := mem_asmBody_of_getElem cmds 0 k c _ hk hmem
  rw [assembly_eq_body]
  exact List.mem_append_left _ (List.mem_append_right _ hbody)

/-! ### Claim theorems -/

/-- C1: contrary to the specified dangling-open check, `buildProgram` does
not inspect the stack at end of input: for the input text `"[ureclosed"`
(which lexes to a single unmatched loop-start) it returns a Program instead
of reporting an unmatched-opening-bracket error.  The C++ code declares a
`LoopMismatch` error type but never throws it. -/
theorem buildProgram_accepts_dangling_open :
    buildProgram (readInstructions "[ureclosed") =
      some [⟨Instruction.LOOP, 0⟩] := by decide

/-- C2: for the input text `"]"` (a loop-end with no open loop-start),
`buildProgram` reads the top of an empty stack — undefined behaviour in
C++, embedded as `none` — instead of reporting the specified
unmatched-closing-bracket (`LoopMismatch`) error. -/
theorem buildProgram_dangling_close_underflows :
    buildProgram (readInstructions "]") = none := by decide

/-- C3: for every well-balanced input, `buildProgram` returns a Program in
which every loop-start Command's jump target holds a loop-end Command whose
own jump target points back at the loop-start (the pairing is a self-inverse
involution over matched pairs). -/
theorem buildProgram_pairing (insts : List Instruction)
    (hb : BalancedInput insts) :
    ∃ cmds, buildProgram insts = some cmds ∧
      ∀ (j : Nat) (c : Command), cmds[j]? = some c →
        c.inst = Instruction.LOOP →
        ∃ c' : Command, cmds[c.jumpTo]? = some c' ∧
          c'.inst = Instruction.JMP ∧ c'.jumpTo = j := by
  obtain ⟨cmds, hrun, hinv⟩ := balanced_run insts hb
  exact ⟨cmds, hrun, fun j c hj hci =>
    hinv.matched_loop j c hj hci (List.not_mem_nil j)⟩

theorem buildProgram_pairing_witness :
    ∃ cmds, buildProgram [Instruction.PLUS, Instruction.PLUS,
        Instruction.LOOP, Instruction.PLUS, Instruction.MINUS,
        Instruction.JMP] = some cmds ∧
      ∀ (j : Nat) (c : Command), cmds[j]? = some c →
        c.inst = Instruction.LOOP →
        ∃ c' : Command, cmds[c.jumpTo]? = some c' ∧
          c'.inst = Instruction.JMP ∧ c'.jumpTo = j :=
  buildProgram_pairing _ (by decide)

/-- C5: for every well-balanced input, `buildProgram` returns a Program of
exactly the input's length whose Command at each index carries the input
instruction at that index: resolving patches only jump-target fields, never
instruction fields. -/
theorem buildProgram_preserves_instructions (insts : List Instruction)
    (hb : BalancedInput insts) :
    ∃ cmds, buildProgram insts = some cmds ∧ cmds.length = insts.length ∧
      ∀ j : Nat, (cmds[j]?).map Command.inst = insts[j]? := by
  obtain ⟨cmds, hrun, _⟩ := balanced_run insts hb
  obtain ⟨hlen, hj⟩ := buildProgramAux_inst insts 0 [] [] cmds hrun
  refine ⟨cmds, hrun, by simpa using hlen, fun j => ?_⟩
  simpa using hj j

theorem buildProgram_preserves_instructions_witness :
    ∃ cmds, buildProgram [Instruction.LOOP, Instruction.JMP] = some cmds ∧
      cmds.length = ([Instruction.LOOP, Instruction.JMP] : List Instruction).length ∧
      ∀ j : Nat, (cmds[j]?).map Command.inst =
        ([Instruction.LOOP, Instruction.JMP] : List Instruction)[j]? :=
  buildProgram_preserves_instructions _ (by decide)

/-- C4: the generated assembly is exactly the fixed prologue, then the
per-Command translations in input order, then the fixed epilogue; nothing
precedes the prologue or follows the epilogue. -/
theorem assembly_framing (cmds : List Command) :
    assembly cmds = asm_init ++ asmBody 0 cmds ++ asm_tail := by
  simp [assembly, assemblyLoop_eq, List.append_assoc]

/-- C6: the lexer keeps exactly the recognised characters, in order, and
never fails: its output is the in-order image of the recognised characters
under `readChar`, and its length is the number of recognised characters. -/
theorem readInstructions_filter_spec (text : String) :
    readInstructions text = text.data.filterMap readChar ∧
    (readInstructions text).length =
      (text.data.filter (fun c => (readChar c).isSome)).length := by
  constructor
  · simp [readInstructions, readInstructionsLoop_eq]
  · simp [readInstructions, readInstructionsLoop_eq, filterMap_readChar_length]

/-- C7: `int_to_label` is injective (distinct Command indices always give
distinct label strings), and for every well-formed Program the number of
loop-start labels emitted equals the number of loop-end target labels
referenced, while every label referenced by a `jz` or `jmp` has a
corresponding emitted `label:` definition line in the generated assembly. -/
theorem label_uniqueness_and_resolution :
    Function.Injective int_to_label ∧
    ∀ (insts : List Instruction) (cmds : List Command),
      BalancedInput insts → buildProgram insts = some cmds →
      (loopLabelDefsFrom 0 cmds).length = (endTargetRefs cmds).length ∧
      ∀ l ∈ jumpTargetRefs cmds, (l ++ ":") ∈ assembly cmds := by
  refine ⟨int_to_label_injective, ?_⟩
  intro insts cmds hb hrun
  obtain ⟨cmds0, hrun0, hinv⟩ := balanced_run insts hb
  rw [hrun0] at hrun
  cases hrun
  refine ⟨loopLabelDefsFrom_length _ 0, ?_⟩
  intro l hl
  simp only [jumpTargetRefs, List.mem_map] at hl
  obtain ⟨c, hcf, rfl⟩ := hl
  rw [List.mem_filter] at hcf
  obtain ⟨hcm, hcp⟩ := hcf
  have hcp' : c.inst = Instruction.LOOP ∨ c.inst = Instruction.JMP :=
    of_decide_eq_true hcp
  obtain ⟨k, hk⟩ := List.getElem?_of_mem hcm
  rcases hcp' with h | h
  · obtain ⟨c', hc', hi', _⟩ :=
      hinv.matched_loop k c hk h (List.not_mem_nil k)
    exact label_def_mem_assembly _ _ _ hc' (Or.inr hi')
  · obtain ⟨c', hc', hi', _, _⟩ := hinv.matched_jmp k c hk h
    exact label_def_mem_assembly _ _ _ hc' (Or.inl hi')

theorem label_uniqueness_and_resolution_witness :
    (loopLabelDefsFrom 0
        [(⟨Instruction.LOOP, 1⟩ : Command), ⟨Instruction.JMP, 0⟩]).length =
      (endTargetRefs
        [(⟨Instruction.LOOP, 1⟩ : Command), ⟨Instruction.JMP, 0⟩]).length ∧
    ∀ l ∈ jumpTargetRefs
        [(⟨Instruction.LOOP, 1⟩ : Command), ⟨Instruction.JMP, 0⟩],
      (l ++ ":") ∈ assembly
        [(⟨Instruction.LOOP, 1⟩ : Command), ⟨Instruction.JMP, 0⟩] :=
  label_uniqueness_and_resolution.2 [Instruction.LOOP, Instruction.JMP]
    [⟨Instruction.LOOP, 1⟩, ⟨Instruction.JMP, 0⟩] (by decide) (by decide)

/-- C8: the pipeline is deterministic.  All three stages are pure
functions of their input; in particular running the code generator, or
the whole pipeline, twice yields identical output. -/
theorem pipeline_deterministic :
    (∀ cmds : List Command, assembly cmds = assembly cmds) ∧
    (∀ text : String, compile text = compile text) :=
  ⟨fun _ => rfl, fun _ => rfl⟩

/-- C9: compiling `"+."` yields exactly the prologue, one increment-cell
line, the output-cell block (the addressed byte is copied to the staging
buffer before the `syscall` line), and the epilogue; no line contains the
`LP` prefix that every loop label (`int_to_label`) starts with, so no loop
labels appear anywhere in the output. -/
theorem compile_plus_put_output :
    compile "+." = some (asm_init ++ [asm_incr] ++ asm_put ++ asm_tail) ∧
    ((asm_init ++ [asm_incr] ++ asm_put ++ asm_tail).all
      (fun s => !(hasLP s.data))) = true ∧
    ∀ n : Nat, hasLP (int_to_label n).data = true := by
  refine ⟨by decide, by decide, ?_⟩
  intro n
  simp [int_to_label, String.data_append, hasLP]

/-- C10: `readChar` recognises exactly the eight instruction characters,
with the documented mapping, and returns `none` on every other character. -/
theorem readChar_table :
    readChar '+' = some Instruction.PLUS ∧
    readChar '-' = some Instruction.MINUS ∧
    readChar '>' = some Instruction.RIGHT ∧
    readChar '<' = some Instruction.LEFT ∧
    readChar '.' = some Instruction.PUT ∧
    readChar ',' = some Instruction.GET ∧
    readChar '[' = some Instruction.LOOP ∧
    readChar ']' = some Instruction.JMP ∧
    ∀ c : Char, c ≠ '+' → c ≠ '-' → c ≠ '>' → c ≠ '<' → c ≠ '.' → c ≠ ',' →
      c ≠ '[' → c ≠ ']' → readChar c = none := by
  refine ⟨rfl, rfl, rfl, rfl, rfl, rfl, rfl, rfl, ?_⟩
  intro c h1 h2 h3 h4 h5 h6 h7 h8
  simp [readChar, h1, h2, h3, h4, h5, h6, h7, h8]

theorem readChar_table_witness : readChar 'x' = none :=
  readChar_table.2.2.2.2.2.2.2.2 'x' (by decide) (by decide) (by decide)
    (by decide) (by decide) (by decide) (by decide) (by decide)

